import Mathlib

/-!
Verification of the `SharedPool` resource pool from
`src/creational-patterns/object-pool/object-pool.h`.

The C++ class `SharedPool<T>` keeps its idle resources in a
`std::stack<std::unique_ptr<T>>` named `m_pool`:

* `Add(t)` pushes the resource onto the stack;
* `Acquire()` asserts the stack is non-empty (the assertion failing is the
  `PoolExhausted` condition), wraps the top element in a `unique_ptr` whose
  custom deleter re-`Add`s the raw pointer to the pool, pops the stack, and
  returns the wrapper (the lease);
* `Empty()` and `Size()` are `const` observers delegating to the stack.

The shallow embedding models the stack as a Lean list whose head is the top
of the stack, and the set of live leases as a ghost list `leased`: a lease
created by `Acquire` holds one resource, and destroying the lease runs the
deleter, which pushes the resource back (`Release`). Resources are values of
an arbitrary type with decidable equality; distinct C++ objects have distinct
addresses, so the reachability relation only adds fresh resources.
-/

set_option maxRecDepth 4096
set_option linter.unusedSectionVars false

namespace SharedPool

/-- The observable state of a `SharedPool` together with the ghost list of
resources currently held by live leases. `pool` is `m_pool` with the list
head as the stack top; `leased` lists the resources owned by outstanding
lease handles (each lease owns exactly one resource). -/
structure PoolState (α : Type) where
  pool : List α
  leased : List α
  deriving DecidableEq, Repr

/-- The failure taxonomy of the pool: the only failure path is `Acquire` on
an empty pool, which the source guards with `assert(!m_pool.empty())`. -/
inductive PoolError where
  | poolExhausted
  deriving DecidableEq, Repr

variable {α : Type} [DecidableEq α]

/-- `SharedPool::Add`: `m_pool.push(std::move(t))`. -/
def Add (s : PoolState α) (t : α) : PoolState α :=
  { pool := t :: s.pool, leased := s.leased }

/-- `SharedPool::Size`: `return m_pool.size()`. -/
def Size (s : PoolState α) : Nat :=
  s.pool.length

/-- `SharedPool::Empty`: `return m_pool.empty()`. -/
def Empty (s : PoolState α) : Bool :=
  s.pool.isEmpty

/-- `SharedPool::Acquire`: on an empty stack the assertion fires
(`poolExhausted`); otherwise the top element is released into the lease
(recorded in `leased`) and popped from the stack. -/
def Acquire (s : PoolState α) : Except PoolError (α × PoolState α) :=
  match s.pool with
  | [] => Except.error PoolError.poolExhausted
  | r :: rest => Except.ok (r, { pool := rest, leased := r :: s.leased })

/-- Running `Acquire` as a state transformer: a failed assertion aborts
before any mutation, so the error case leaves the state untouched. -/
def acquireRun (s : PoolState α) : Except PoolError α × PoolState α :=
  match Acquire s with
  | Except.error e => (Except.error e, s)
  | Except.ok (r, s') => (Except.ok r, s')

/-- The lease deleter: `this->Add(std::unique_ptr<T>(ptr))`. The resource is
pushed back onto the stack exactly as held, and the lease ends (one
occurrence of the resource leaves the ghost `leased` list). -/
def Release (s : PoolState α) (r : α) : PoolState α :=
  { pool := r :: s.pool, leased := s.leased.erase r }

/-- Running the `const` observer `Empty` as a state transformer. -/
def emptyRun (s : PoolState α) : Bool × PoolState α :=
  (Empty s, s)

/-- Running the `const` observer `Size` as a state transformer. -/
def sizeRun (s : PoolState α) : Nat × PoolState α :=
  (Size s, s)

/-- Claim C7: seeding a fresh pool with the single resource `7` and calling
`Acquire` twice with no intervening release: the first call succeeds and
returns `7` leaving `Size` at `0`, and the second call signals
`PoolExhausted`. -/
theorem seeded_one_two_acquires :
    acquireRun (Add ({ pool := [], leased := [] } : PoolState Nat) 7) =
      (Except.ok 7, { pool := [], leased := [7] }) ∧
    Size (acquireRun (Add ({ pool := [], leased := [] } : PoolState Nat) 7)).2 = 0 ∧
    (acquireRun (acquireRun (Add ({ pool := [], leased := [] } : PoolState Nat) 7)).2).1 =
      Except.error PoolError.poolExhausted :=
  ⟨rfl, rfl, rfl⟩

/-- Claim C9: `Add` is total — for every pool state and resource it inserts
the resource at the top of the idle collection, increases `Size` by one,
leaves the lease set untouched, and has no failure path. -/
theorem add_always_succeeds (s : PoolState Nat) (r : Nat) :
    Size (Add s r) = Size s + 1 ∧ (Add s r).pool = r :: s.pool ∧
    (Add s r).leased = s.leased := by
  refine ⟨?_, rfl, rfl⟩
  simp [Add, Size]

/-- Claim C8: `Empty` and `Size` are pure observers: they return their value
without changing the state, `Empty` is `true` exactly when the idle
collection holds zero resources, and `Size` is the count of idle
resources. -/
theorem observers_pure (s : PoolState Nat) :
    (emptyRun s).2 = s ∧ (sizeRun s).2 = s ∧
    ((emptyRun s).1 = true ↔ (sizeRun s).1 = 0) ∧
    (sizeRun s).1 = s.pool.length := by
  refine ⟨rfl, rfl, ?_, rfl⟩
  cases s with
  | mk pool leased => cases pool <;> simp [emptyRun, sizeRun, Empty, Size]

/-- Claim C3: `Acquire` on a pool of `Size` zero signals `PoolExhausted`
and leaves the state unchanged, while `Acquire` on a pool with a non-empty
idle collection never signals it. -/
theorem acquire_empty_exhausts (s t : PoolState Nat)
    (hs : Size s = 0) (ht : Size t ≠ 0) :
    acquireRun s = (Except.error PoolError.poolExhausted, s) ∧
    (acquireRun t).1 ≠ Except.error PoolError.poolExhausted := by
  constructor
  · cases s with
    | mk pool leased =>
      cases pool with
      | nil => rfl
      | cons r rest => simp [Size] at hs
  · cases t with
    | mk pool leased =>
      cases pool with
      | nil => simp [Size] at ht
      | cons r rest => simp [acquireRun, Acquire]

/-- Witness for C3 at concrete states: the empty pool and a pool holding
the single resource `5`. -/
theorem acquire_empty_exhausts_witness :
    acquireRun ({ pool := [], leased := [] } : PoolState Nat) =
      (Except.error PoolError.poolExhausted, { pool := [], leased := [] }) ∧
    (acquireRun ({ pool := [5], leased := [] } : PoolState Nat)).1 ≠
      Except.error PoolError.poolExhausted :=
  acquire_empty_exhausts { pool := [], leased := [] } { pool := [5], leased := [] }
    rfl (by decide)

/-- Claim C6: the reference implementation is last-in-first-out: acquiring
right after `Add r` (or right after the release of a lease on `r`) removes
and returns exactly `r`, and in general `Acquire` on a non-empty idle
collection removes and returns the head of the stack — the most recent
insertion. -/
theorem acquire_lifo (s : PoolState Nat) (r : Nat) (t : PoolState Nat)
    (r' : Nat) (rest : List Nat) (ht : t.pool = r' :: rest) :
    acquireRun (Add s r) = (Except.ok r, { pool := s.pool, leased := r :: s.leased }) ∧
    acquireRun (Release s r) =
      (Except.ok r, { pool := s.pool, leased := r :: s.leased.erase r }) ∧
    acquireRun t = (Except.ok r', { pool := rest, leased := r' :: t.leased }) := by
  refine ⟨rfl, rfl, ?_⟩
  cases t with
  | mk pool leased =>
    simp only at ht
    subst ht
    rfl

/-- Witness for C6: a pool whose stack holds `3` above `4`. -/
theorem acquire_lifo_witness :
    acquireRun (Add ({ pool := [], leased := [] } : PoolState Nat) 1) =
      (Except.ok 1, { pool := [], leased := [1] }) ∧
    acquireRun (Release ({ pool := [], leased := [] } : PoolState Nat) 1) =
      (Except.ok 1, { pool := [], leased := [1] }) ∧
    acquireRun ({ pool := [3, 4], leased := [] } : PoolState Nat) =
      (Except.ok 3, { pool := [4], leased := [3] }) :=
  acquire_lifo { pool := [], leased := [] } 1 { pool := [3, 4], leased := [] } 3 [4] rfl

/-- A single client-visible pool operation: an `Add` of a resource, an
`Acquire`, or the end of a lease on a resource (the deleter firing). -/
inductive Op (α : Type) where
  | add (r : α)
  | acquire
  | release (r : α)
  deriving DecidableEq, Repr

/-- Run one operation on the pool state. -/
def runOp (s : PoolState α) : Op α → PoolState α
  | Op.add r => Add s r
  | Op.acquire => (acquireRun s).2
  | Op.release r => Release s r

/-- Run a sequence of operations left to right. -/
def runOps (s : PoolState α) (ops : List (Op α)) : PoolState α :=
  ops.foldl runOp s

/-- `true` when the trace contains no `Add` operation. -/
def noAdd : List (Op α) → Bool
  | [] => true
  | Op.add _ :: _ => false
  | Op.acquire :: rest => noAdd rest
  | Op.release _ :: rest => noAdd rest

/-- `true` when every `release` in the trace ends a lease that is live at
that point — which is the only way a release can arise in the C++ code,
since deleters fire once per lease created by `Acquire`. -/
def validTrace : PoolState α → List (Op α) → Bool
  | _, [] => true
  | s, Op.add r :: rest => validTrace (Add s r) rest
  | s, Op.acquire :: rest => validTrace (acquireRun s).2 rest
  | s, Op.release r :: rest => decide (r ∈ s.leased) && validTrace (Release s r) rest

/-- A trace without `Add` conserves the total number of resources: every
`Acquire` (successful or exhausted) and every valid release keeps
`pool.length + leased.length` constant. -/
theorem runOps_load (t : List (Op α)) :
    ∀ s : PoolState α, noAdd t = true → validTrace s t = true →
      (runOps s t).pool.length + (runOps s t).leased.length =
        s.pool.length + s.leased.length := by
  induction t with
  | nil => intro s _ _; rfl
  | cons op rest ih =>
    intro s hna hv
    cases op with
    | add r => simp [noAdd] at hna
    | acquire =>
      have h := ih (acquireRun s).2 (by simpa [noAdd] using hna)
        (by simpa [validTrace] using hv)
      have hstep : runOps s (Op.acquire :: rest) = runOps (acquireRun s).2 rest := rfl
      rw [hstep, h]
      cases s with
      | mk pool leased =>
        cases pool with
        | nil => rfl
        | cons r prest =>
          simp only [acquireRun, Acquire, List.length_cons]
          omega
    | release r =>
      simp only [validTrace, Bool.and_eq_true, decide_eq_true_eq] at hv
      have h := ih (Release s r) (by simpa [noAdd] using hna) hv.2
      have hstep : runOps s (Op.release r :: rest) = runOps (Release s r) rest := rfl
      rw [hstep, h]
      have hlen : (s.leased.erase r).length = s.leased.length - 1 :=
        List.length_erase_of_mem hv.1
      have hpos : 0 < s.leased.length := List.length_pos.mpr
        (List.ne_nil_of_mem hv.1)
      simp only [Release, List.length_cons, hlen]
      omega

/-- Claim C1 (amended): running any `Add` calls and then any valid trace of
matched `Acquire`/lease-release pairs (a trace without `Add` whose releases
end live leases and which ends exactly as many leases as it starts, so the
live-lease count is restored), `Size` afterwards equals `Size` before the
whole sequence plus the number of `Add` calls; in particular the matched
`Acquire`/release pairs themselves leave `Size` unchanged. -/
theorem size_conserved (s₀ : PoolState Nat) (adds : List Nat) (t : List (Op Nat))
    (hna : noAdd t = true)
    (hv : validTrace (runOps s₀ (adds.map Op.add)) t = true)
    (hbal : (runOps (runOps s₀ (adds.map Op.add)) t).leased.length =
      (runOps s₀ (adds.map Op.add)).leased.length) :
    Size (runOps (runOps s₀ (adds.map Op.add)) t) = Size s₀ + adds.length := by
  have hadds : ∀ (l : List Nat) (s : PoolState Nat),
      (runOps s (l.map Op.add)).pool.length = s.pool.length + l.length ∧
      (runOps s (l.map Op.add)).leased = s.leased := by
    intro l
    induction l with
    | nil => intro s; exact ⟨rfl, rfl⟩
    | cons r l ih =>
      intro s
      have h := ih (Add s r)
      have hstep : runOps s ((r :: l).map Op.add) = runOps (Add s r) (l.map Op.add) := rfl
      constructor
      · rw [hstep, h.1]; simp [Add]; omega
      · rw [hstep, h.2]; rfl
  have hload := runOps_load t (runOps s₀ (adds.map Op.add)) hna hv
  rw [hbal] at hload
  have h1 := hadds adds s₀
  simp only [Size]
  omega

/-- Counterexample to C1 as stated: a sequence consisting of one `Add` call
followed by zero `Acquire`/release pairs changes `Size`, so `Size` after
such a sequence does not in general equal `Size` before it. -/
theorem size_conserved_cex :
    ¬ (Size (runOps ({ pool := [], leased := [] } : PoolState Nat) [Op.add 0]) =
      Size ({ pool := [], leased := [] } : PoolState Nat)) := by
  decide

/-- Witness for the amended C1: two `Add` calls then one matched
`Acquire`/release pair restore `Size` to the value after the adds. -/
theorem size_conserved_witness :
    Size (runOps (runOps ({ pool := [], leased := [] } : PoolState Nat)
        ([1, 2].map Op.add)) [Op.acquire, Op.release 2]) =
      Size ({ pool := [], leased := [] } : PoolState Nat) + [1, 2].length :=
  size_conserved { pool := [], leased := [] } [1, 2] [Op.acquire, Op.release 2]
    (by decide) (by decide) (by decide)

/-- The pool states reachable from a fresh `SharedPool` by the operations
the C++ interface offers. `add` only inserts a resource that is not already
in the system, because each `std::unique_ptr` passed to `Add` owns a
distinct object; `release` ends a live lease, because deleters fire once for
each lease handed out by `Acquire`. -/
inductive Reach : PoolState Nat → Prop where
  | init : Reach { pool := [], leased := [] }
  | add {s : PoolState Nat} {r : Nat} : Reach s → r ∉ s.pool → r ∉ s.leased →
      Reach (Add s r)
  | acquire {s s' : PoolState Nat} {r : Nat} : Reach s →
      Acquire s = Except.ok (r, s') → Reach s'
  | release {s : PoolState Nat} {r : Nat} : Reach s → r ∈ s.leased →
      Reach (Release s r)

/-- In every reachable state the resources, idle and leased together, are
pairwise distinct. -/
theorem reach_nodup {s : PoolState Nat} (h : Reach s) :
    (s.pool ++ s.leased).Nodup := by
  induction h with
  | init => simp
  | add h hp hl ih =>
    simp only [Add, List.cons_append, List.nodup_cons]
    exact ⟨by simp [hp, hl], ih⟩
  | acquire h heq ih =>
    rename_i s s' r
    cases hs : s.pool with
    | nil => rw [Acquire, hs] at heq; exact absurd heq (by simp)
    | cons a rest =>
      rw [Acquire, hs] at heq
      injection heq with heq
      injection heq with ha hs'
      subst ha
      subst hs'
      rw [hs] at ih
      simp only [List.cons_append] at ih
      exact List.perm_middle.symm.nodup ih
  | release h hr ih =>
    rename_i s r
    have hperm : (s.pool ++ s.leased).Perm
        ((Release s r).pool ++ (Release s r).leased) := by
      simp only [Release, List.cons_append]
      exact ((List.perm_cons_erase hr).append_left s.pool).trans List.perm_middle
    exact hperm.nodup ih

/-- Claim C4: in every reachable pool state a resource has at most one
owner — it is never both idle and leased, never idle twice, and never held
by two live leases. -/
theorem single_owner {s : PoolState Nat} (hs : Reach s) (r : Nat) :
    List.count r s.pool + List.count r s.leased ≤ 1 := by
  have h := List.nodup_iff_count_le_one.mp (reach_nodup hs) r
  rwa [List.count_append] at h

/-- Witness for C4 at the reachable state obtained by adding `1` and `2`
and acquiring once (idle `[1]`, leased `[2]`). -/
theorem single_owner_witness :
    List.count 2 ({ pool := [1], leased := [2] } : PoolState Nat).pool +
      List.count 2 ({ pool := [1], leased := [2] } : PoolState Nat).leased ≤ 1 :=
  single_owner
    (Reach.acquire
      (Reach.add (Reach.add Reach.init (by decide) (by decide)) (by decide) (by decide))
      rfl) 2

/-- Claim C2: releasing a live lease in a reachable state re-inserts its
resource exactly once: afterwards the resource appears exactly once in the
idle collection, and the idle collection has grown by exactly one slot. -/
theorem release_reinserts_once {s : PoolState Nat} {r : Nat}
    (hs : Reach s) (hr : r ∈ s.leased) :
    List.count r (Release s r).pool = 1 ∧
    (Release s r).pool.length = s.pool.length + 1 := by
  have hd : s.pool.Disjoint s.leased :=
    List.disjoint_of_nodup_append (reach_nodup hs)
  have hnp : r ∉ s.pool := fun hp => hd hp hr
  constructor
  · simp only [Release, List.count_cons_self]
    rw [List.count_eq_zero.mpr hnp]
  · simp [Release]

/-- Witness for C2 at the reachable state with leased `[5]` and empty idle
collection (add `5`, then acquire it). -/
theorem release_reinserts_once_witness :
    List.count 5 (Release ({ pool := [], leased := [5] } : PoolState Nat) 5).pool = 1 ∧
    (Release ({ pool := [], leased := [5] } : PoolState Nat) 5).pool.length =
      ({ pool := [], leased := [5] } : PoolState Nat).pool.length + 1 :=
  release_reinserts_once
    (Reach.acquire (Reach.add Reach.init (by decide) (by decide)) rfl) (by decide)

/-- `n` successive `Acquire` calls with no intervening release, each one
required to succeed (`none` when any call hits the exhaustion assertion). -/
def acquireN : Nat → PoolState α → Option (PoolState α)
  | 0, s => some s
  | n + 1, s =>
    match Acquire s with
    | Except.error _ => none
    | Except.ok (_, s') => acquireN n s'

/-- Acquiring as many times as the pool holds idle resources succeeds and
drains the stack into the lease set (in reverse stack order). -/
theorem acquireN_drain (pool leased : List α) :
    acquireN pool.length { pool := pool, leased := leased } =
      some { pool := [], leased := pool.reverse ++ leased } := by
  induction pool generalizing leased with
  | nil => rfl
  | cons r rest ih =>
    have hstep : acquireN (r :: rest).length
        ({ pool := r :: rest, leased := leased } : PoolState α) =
        acquireN rest.length { pool := rest, leased := r :: leased } := rfl
    rw [hstep, ih (r :: leased)]
    simp

/-- Each lease release pushes one resource back, so releasing a list of
leases grows `Size` by the length of the list. -/
theorem size_foldl_release (order : List α) :
    ∀ s : PoolState α, Size (order.foldl Release s) = Size s + order.length := by
  induction order with
  | nil => intro s; rfl
  | cons r rest ih =>
    intro s
    have hstep : (r :: rest).foldl Release s = rest.foldl Release (Release s r) := rfl
    rw [hstep, ih (Release s r)]
    simp [Release, Size]
    omega

/-- Claim C5: from a pool of `Size` `n > 0` with no outstanding leases,
acquiring `n` times succeeds (draining the idle collection to `Size` zero),
and then releasing all `n` leases, in any order, restores `Size` to exactly
`n`. -/
theorem drain_refill_restores_size (s : PoolState Nat) (n : Nat) (order : List Nat)
    (hl : s.leased = []) (hn : s.pool.length = n) (hpos : 0 < n)
    (hperm : order.Perm s.pool.reverse) :
    acquireN n s = some { pool := [], leased := s.pool.reverse } ∧
    Size ({ pool := [], leased := s.pool.reverse } : PoolState Nat) = 0 ∧
    Size (order.foldl Release ({ pool := [], leased := s.pool.reverse } : PoolState Nat)) = n := by
  refine ⟨?_, rfl, ?_⟩
  · cases s with
    | mk pool leased =>
      simp only at hl hn
      subst hl
      subst hn
      rw [acquireN_drain]
      simp
  · rw [size_foldl_release, hperm.length_eq]
    simp [Size]
    omega

/-- Witness for C5: pool `[1, 2]`, both resources acquired, then released
in the order `1` before `2` — the reverse of the acquisition order. -/
theorem drain_refill_restores_size_witness :
    acquireN 2 ({ pool := [1, 2], leased := [] } : PoolState Nat) =
      some { pool := [], leased := ([1, 2] : List Nat).reverse } ∧
    Size ({ pool := [], leased := ([1, 2] : List Nat).reverse } : PoolState Nat) = 0 ∧
    Size ([1, 2].foldl Release
      ({ pool := [], leased := ([1, 2] : List Nat).reverse } : PoolState Nat)) = 2 :=
  drain_refill_restores_size { pool := [1, 2], leased := [] } 2 [1, 2]
    rfl rfl (by decide) (by decide)

end SharedPool

/-- The `Resource` class of object-pool.h: its private state is the field
`m_value` (the pool never inspects it, so its exact type is irrelevant to
the pool's behaviour; we model it as an integer). -/
structure Resource where
  m_value : Int
  deriving DecidableEq, Repr

/-- Modelled from the spec: `Resource::Reset` is declared in object-pool.h
with the documentation "Resets the resource to initial known & safe state",
but its body is not in the source; modelled as restoring the private state
to a fixed initial value. -/
def Resource.Reset (_ : Resource) : Resource :=
  { m_value := 0 }

namespace SharedPool

/-- Claim C10: the release path re-inserts the resource object unmodified —
the deleter only calls `Add` on the held pointer, so the released resource
sits at the top of the idle collection with exactly the state its borrower
left, a subsequent `Acquire` hands that same state to the next borrower,
and (whenever `Reset` would change the resource) the inserted resource is
not the `Reset` one. -/
theorem release_preserves_resource (s : PoolState Resource) (res : Resource)
    (h : Resource.Reset res ≠ res) :
    Release s res = { pool := res :: s.pool, leased := s.leased.erase res } ∧
    (acquireRun (Release s res)).1 = Except.ok res ∧
    (Release s res).pool.head? = some res ∧
    (Release s res).pool.head? ≠ some (Resource.Reset res) := by
  refine ⟨rfl, rfl, rfl, ?_⟩

  simp only [Release, List.head?_cons, ne_eq, Option.some.injEq]
  exact fun he => h he.symm

/-- Witness for C10: a dirty resource with `m_value = 5` released into an
empty pool keeps its value. -/
theorem release_preserves_resource_witness :
    Release ({ pool := [], leased := [] } : PoolState Resource) { m_value := 5 } =
      { pool := [{ m_value := 5 }],
        leased := ([] : List Resource).erase { m_value := 5 } } ∧
    (acquireRun (Release ({ pool := [], leased := [] } : PoolState Resource)
      { m_value := 5 })).1 = Except.ok { m_value := 5 } ∧
    (Release ({ pool := [], leased := [] } : PoolState Resource)
      { m_value := 5 }).pool.head? = some { m_value := 5 } ∧
    (Release ({ pool := [], leased := [] } : PoolState Resource)
      { m_value := 5 }).pool.head? ≠ some (Resource.Reset { m_value := 5 }) :=
  release_preserves_resource { pool := [], leased := [] } { m_value := 5 } (by decide)

end SharedPool
